import Mathlib

/-!
Shallow embedding of the guitar-tablature genetic algorithm (src/GTG.py).

Python's fallible operations (list indexing, `midi_notes[-1]`) are modelled
with Option. Random draws (random.randint, random.random, random.choice) are
passed in explicitly as oracle values; the contract of each draw (its range)
appears as a hypothesis on the theorems that need it.
-/

namespace GTG

/-- Standard guitar tuning, src/GTG.py line 8: E2, A2, D3, G3, B3, e4. -/
def TUNING : List Int := [40, 45, 50, 55, 59, 64]

/-- src/GTG.py line 9. -/
def NUM_STRINGS : Nat := 6

/-- src/GTG.py line 10. -/
def MAX_FRET : Nat := 15

/-- src/GTG.py line 11: number of notes to compose. -/
def MELODY_LENGTH : Nat := 30

/-- src/GTG.py line 14. -/
def POPULATION_SIZE : Nat := 100

/-- src/GTG.py line 16. -/
def NUM_GENERATIONS : Nat := 200

/-- src/GTG.py line 23: C major pitch classes. -/
def SCALE_C_MAJOR : List Int := [0, 2, 4, 5, 7, 9, 11]

/-- A gene is a (string index, fret) pair; both are non-negative in the
source (randint lower bounds are 0), so Nat is used. -/
abbrev Gene := Nat × Nat

/-- A chromosome (candidate melody) is a list of genes. -/
abbrev Chromosome := List Gene

/-- The range contract of the two randint draws inside generate_random_gene
(src/GTG.py lines 27-31): randint(0, NUM_STRINGS - 1) and randint(0, MAX_FRET). -/
def geneDrawValid (g : Gene) : Prop :=
  g.1 ≤ NUM_STRINGS - 1 ∧ g.2 ≤ MAX_FRET

/-- generate_individual, src/GTG.py lines 33-35: MELODY_LENGTH fresh random
genes; the draws are supplied by the oracle function. -/
def generate_individual (draw : Nat → Gene) : Chromosome :=
  (List.range MELODY_LENGTH).map draw

/-- get_note_midi, src/GTG.py lines 39-41: TUNING[string_idx] + fret.
Python list indexing raises out of range, hence Option. -/
def get_note_midi (string_idx fret : Nat) : Option Int :=
  (TUNING.get? string_idx).map (fun t => t + (fret : Int))

/-- Harmony criterion for one note, src/GTG.py lines 59-70: +10 when the
chroma is in the scale, a further +5 for tonic or dominant, -50 otherwise. -/
def harmonyTerm (scale : List Int) (midi : Int) : Int :=
  let chroma := midi % 12
  if chroma ∈ scale then
    10 + (if chroma = 0 ∨ chroma = 7 then 5 else 0)
  else
    -50

/-- Contour criterion for one consecutive pair, src/GTG.py lines 84-90,
applied to the absolute pitch interval: -20 past an octave, -5 for an
immediate repeat, else 0. -/
def contourTerm (interval : Int) : Int :=
  if interval > 12 then -20
  else if interval = 0 then -5
  else 0

/-- Contribution of one consecutive pair (the i > 0 branch of the loop,
src/GTG.py lines 73-90): fret/string technique penalties plus the contour
term. Each element pairs a gene with its midi value. -/
def pairTerm (prev cur : Gene × Int) : Int :=
  -((|(cur.1.2 : Int) - (prev.1.2 : Int)|) * 2 + (|(cur.1.1 : Int) - (prev.1.1 : Int)|) * 5)
    + contourTerm (|cur.2 - prev.2|)

/-- Sum of pairTerm over all consecutive pairs, matching the loop over
i = 1 .. len-1 in src/GTG.py lines 55-90. -/
def pairTerms : List (Gene × Int) → Int
  | a :: b :: rest => pairTerm a b + pairTerms (b :: rest)
  | _ => 0

/-- Pre-calculated midi values of the whole melody, src/GTG.py line 53: the
list comprehension evaluates get_note_midi on every gene and fails (raises)
iff one of the string indices is out of the tuning table's range. -/
def midiNotes : Chromosome → Option (List Int)
  | [] => some []
  | g :: rest =>
    (get_note_midi g.1 g.2).bind (fun m => (midiNotes rest).map (fun ms => m :: ms))

/-- fitness_function generalised over the scale constant it reads
(src/GTG.py lines 43-97): per-note harmony terms, per-pair technique and
contour terms, and the resolution bonus read off midi_notes[-1] (which
raises on an empty melody, hence the getLast? bind). -/
def fitness_scale (scale : List Int) (chromosome : Chromosome) : Option Int :=
  (midiNotes chromosome).bind (fun midi_notes =>
    (midi_notes.getLast?).map (fun last_note =>
      (midi_notes.map (harmonyTerm scale)).sum
        + pairTerms (chromosome.zip midi_notes)
        + (if last_note % 12 = 0 then 30 else 0)))

/-- fitness_function, src/GTG.py lines 43-97, with the global SCALE_C_MAJOR. -/
def fitness_function : Chromosome → Option Int :=
  fitness_scale SCALE_C_MAJOR

/-- crossover, src/GTG.py lines 101-104: p1[:split] + p2[split:]. The split
is drawn by randint(1, len(p1) - 1); it is passed in explicitly. -/
def crossover (p1 p2 : Chromosome) (split : Nat) : Chromosome :=
  p1.take split ++ p2.drop split

/-- mutate, src/GTG.py lines 106-112: with probability MUTATION_RATE replace
one gene by a fresh random one. The coin flip (random.random() < rate), the
index draw randint(0, len-1) and the fresh gene are passed in explicitly;
Python's mutant[idx] = gene is List.set. -/
def mutate (chromosome : Chromosome) (doMutate : Bool) (idx : Nat) (g : Gene) :
    Chromosome :=
  if doMutate then chromosome.set idx g else chromosome

/-- Score used by the evolution loop. Inside the loop every candidate is a
non-empty in-bounds melody, so fitness_function always returns some value;
getD 0 only discharges the Option. -/
def fitnessTotal (c : Chromosome) : Int :=
  (fitness_function c).getD 0

/-- int(POPULATION_SIZE * 0.3) in src/GTG.py line 128: 100 * 0.3 rounds to
exactly 30.0 as a double, so the slice keeps 30 candidates. -/
def TOP_COUNT : Nat := 30

/-- scored_pop, src/GTG.py line 119: each candidate paired with its score. -/
def scoredPop (population : List Chromosome) : List (Chromosome × Int) :=
  population.map (fun ind => (ind, fitnessTotal ind))

/-- scored_pop.sort(key=lambda x: x[1], reverse=True), src/GTG.py line 121:
stable sort, highest score first. -/
def sortedPop (population : List Chromosome) : List (Chromosome × Int) :=
  (scoredPop population).mergeSort (fun a b => decide (b.2 ≤ a.2))

/-- top_performers, src/GTG.py line 128: candidates of the best 30 pairs. -/
def topPerformers (population : List Chromosome) : List Chromosome :=
  ((sortedPop population).take TOP_COUNT).map Prod.fst

/-- The random draws consumed while producing one child in the while loop of
src/GTG.py lines 137-141: two random.choice picks from top_performers
(modelled as indices), the crossover split, and the mutate draws. -/
structure ChildDraw where
  parent1 : Nat
  parent2 : Nat
  split : Nat
  doMutate : Bool
  mutIdx : Nat
  mutGene : Gene

/-- Range contracts of the draws for one child: random.choice indexes into
the 30-element top_performers list, randint(1, len(p1) - 1) with len = 30,
randint(0, len(mutant) - 1) with len = 30, and the gene draw bounds. -/
def ChildDraw.Valid (d : ChildDraw) : Prop :=
  d.parent1 < TOP_COUNT ∧ d.parent2 < TOP_COUNT ∧
    1 ≤ d.split ∧ d.split ≤ MELODY_LENGTH - 1 ∧
    d.mutIdx ≤ MELODY_LENGTH - 1 ∧ geneDrawValid d.mutGene

/-- child = mutate(crossover(parent1, parent2)), src/GTG.py lines 138-140. -/
def makeChild (top : List Chromosome) (d : ChildDraw) : Chromosome :=
  mutate (crossover (top.getD d.parent1 []) (top.getD d.parent2 []) d.split)
    d.doMutate d.mutIdx d.mutGene

/-- One generation of genetic_algorithm, src/GTG.py lines 118-143: the elite
top_performers[0] followed by POPULATION_SIZE - 1 children produced by the
while loop. -/
def nextGen (population : List Chromosome) (draws : Nat → ChildDraw) :
    List Chromosome :=
  (topPerformers population).headI ::
    (List.range (POPULATION_SIZE - 1)).map
      (fun i => makeChild (topPerformers population) (draws i))

/-- All random draws of one run: a gene draw per (individual, locus) for the
initial population and a ChildDraw per (generation, child). -/
structure Oracle where
  initDraw : Nat → Nat → Gene
  childDraw : Nat → Nat → ChildDraw

/-- Every draw of the run satisfies its range contract. -/
def Oracle.Valid (r : Oracle) : Prop :=
  (∀ n i, geneDrawValid (r.initDraw n i)) ∧ (∀ g i, (r.childDraw g i).Valid)

/-- The population held by genetic_algorithm (src/GTG.py lines 114-143) at
the start of generation g: the random initial population, then one nextGen
step per completed generation. -/
def populationAt (r : Oracle) : Nat → List Chromosome
  | 0 => (List.range POPULATION_SIZE).map (fun n => generate_individual (r.initDraw n))
  | g + 1 => nextGen (populationAt r g) (r.childDraw g)

/-- Best score present in a population (WithBot Int; never bottom for the
non-empty populations the loop produces). -/
def maxScore (pop : List Chromosome) : WithBot Int :=
  (pop.map fitnessTotal).maximum

end GTG

namespace GTG

/-- C10: fitness_function is not total on the empty candidate: the source
unconditionally reads midi_notes[-1] for the resolution check, so the
length-0 melody evaluates to an error (none), and the totality promise can
only hold for length at least 1. -/
theorem fitness_function_nil : fitness_function [] = none := rfl

/-- C4 counterexample: with the configured tuning and C-major pitch-class
set, the one-note candidates [(5,0)] (pitch 64, chroma 4) and [(5,1)]
(pitch 65, chroma 5) both hit the plain in-key reward and nothing else, so
both score exactly 10: the claimed strict inequality fails. -/
theorem scenarioA_counterexample :
    fitness_function [(5, 0)] = some 10 ∧ fitness_function [(5, 1)] = some 10 ∧
    ¬ ((10 : Int) > 10) := ⟨rfl, rfl, by omega⟩

/-- C4 amended: the two candidates score identically — chroma 4 and chroma 5
are both in-key and neither is the tonic or the dominant, so each gets the
same +10 harmony reward and no resolution bonus. -/
theorem scenarioA_amended :
    fitness_function [(5, 0)] = fitness_function [(5, 1)] := rfl

/-- C9: the source performs no configuration validation. With the malformed
configuration of an empty pitch-class set, scoring proceeds normally instead
of reporting a configuration error: every note falls into the dissonance
branch and the run continues. -/
theorem empty_scale_no_config_error :
    fitness_scale [] [(5, 0)] = some (-50) := rfl

/-- C2: for parents of length L and any split in [1, L-1], crossover returns
a child of length exactly L whose first split positions are parent1's and
whose remaining positions are parent2's from the split onward; such a split
is never 0 and never L. -/
theorem crossover_spec (L : Nat) (A B : Chromosome) (k : Nat)
    (hA : A.length = L) (hB : B.length = L) (hk1 : 1 ≤ k) (hk2 : k ≤ L - 1) :
    (crossover A B k).length = L ∧
    (crossover A B k).take k = A.take k ∧
    (crossover A B k).drop k = B.drop k ∧
    0 < k ∧ k < L := by
  have hkL : k < L := by omega
  have hlen : (A.take k).length = k := by
    simp [hA]
    omega
  refine ⟨?_, ?_, ?_, by omega, hkL⟩
  · simp [crossover, hA, hB]
    omega
  · exact List.take_left' hlen
  · exact List.drop_left' hlen

/-- Witness for crossover_spec at L = 2, split 1. -/
theorem crossover_spec_witness :
    (crossover [(0, 0), (1, 1)] [(2, 2), (3, 3)] 1).length = 2 ∧
    (crossover [(0, 0), (1, 1)] [(2, 2), (3, 3)] 1).take 1 =
      ([(0, 0), (1, 1)] : Chromosome).take 1 ∧
    (crossover [(0, 0), (1, 1)] [(2, 2), (3, 3)] 1).drop 1 =
      ([(2, 2), (3, 3)] : Chromosome).drop 1 ∧
    0 < 1 ∧ 1 < 2 :=
  crossover_spec 2 [(0, 0), (1, 1)] [(2, 2), (3, 3)] 1 rfl rfl
    (by decide) (by decide)

/-- C6: the candidate with a 12-semitone jump scores -4 while the otherwise
identical candidate with a 13-semitone jump scores -26, and the -20
wide-jump contour penalty fires exactly for absolute intervals strictly
greater than 12. -/
theorem scenarioB_contour :
    fitness_function [(0, 0), (0, 12)] = some (-4) ∧
    fitness_function [(0, 0), (0, 13)] = some (-26) ∧
    ((-26 : Int) < -4) ∧
    (∀ interval : Int, 0 ≤ interval → (contourTerm interval = -20 ↔ 12 < interval)) := by
  refine ⟨rfl, rfl, by omega, ?_⟩
  intro interval _
  unfold contourTerm
  split
  · omega
  · split <;> omega

/-- Witness for the contour-threshold clause of scenarioB_contour at
interval 13. -/
theorem scenarioB_contour_witness :
    contourTerm 13 = -20 ↔ 12 < (13 : Int) :=
  scenarioB_contour.2.2.2 13 (by omega)

/-- C7: one invocation of mutate changes at most one position, and whenever a
position is changed, its new value is the supplied fresh gene, whose string
index and fret lie within the configured bounds. -/
theorem mutate_spec (c : Chromosome) (doMutate : Bool) (idx : Nat) (g : Gene)
    (hg : geneDrawValid g) :
    (mutate c doMutate idx g).length = c.length ∧
    (∀ j, j ≠ idx → (mutate c doMutate idx g).get? j = c.get? j) ∧
    (∀ j, (mutate c doMutate idx g).get? j ≠ c.get? j →
      (mutate c doMutate idx g).get? j = some g ∧ g.1 < NUM_STRINGS ∧ g.2 ≤ MAX_FRET) := by
  obtain ⟨hg1, hg2⟩ := hg
  have hs : g.1 < NUM_STRINGS := by
    simp [NUM_STRINGS] at hg1 ⊢
    omega
  cases doMutate with
  | false => simp [mutate]
  | true =>
    have hm : mutate c true idx g = c.set idx g := by simp [mutate]
    rw [hm]
    refine ⟨by simp, ?_, ?_⟩
    · intro j hj
      simp only [List.get?_eq_getElem?]
      rw [List.getElem?_set]
      simp [Ne.symm hj]
    · intro j hne
      simp only [List.get?_eq_getElem?] at hne ⊢
      rw [List.getElem?_set] at hne ⊢
      by_cases hij : idx = j
      · subst hij
        by_cases hlt : idx < c.length
        · simp [hlt]
          exact ⟨hs, hg2⟩
        · simp [hlt] at hne
      · simp [hij] at hne

/-- Witness for mutate_spec: mutating the one-note candidate [(0,0)] at
index 0 with the fresh gene (2,3). -/
theorem mutate_spec_witness :
    (mutate [(0, 0)] true 0 (2, 3)).length = ([(0, 0)] : Chromosome).length ∧
    (∀ j, j ≠ 0 →
      (mutate [(0, 0)] true 0 (2, 3)).get? j = ([(0, 0)] : Chromosome).get? j) ∧
    (∀ j, (mutate [(0, 0)] true 0 (2, 3)).get? j ≠ ([(0, 0)] : Chromosome).get? j →
      (mutate [(0, 0)] true 0 (2, 3)).get? j = some (2, 3) ∧
        (2, 3).1 < NUM_STRINGS ∧ (2, 3).2 ≤ MAX_FRET) :=
  mutate_spec [(0, 0)] true 0 (2, 3) (by constructor <;> decide)

end GTG

namespace GTG

theorem pairTerms_single (a : Gene × Int) : pairTerms [a] = 0 := rfl

theorem pairTerms_cons₂ (a b : Gene × Int) (rest : List (Gene × Int)) :
    pairTerms (a :: b :: rest) = pairTerm a b + pairTerms (b :: rest) := rfl

/-- midiNotes succeeds on every candidate whose string indices are in range,
and yields one midi value per note. -/
theorem midiNotes_isSome (c : Chromosome) (hb : ∀ g ∈ c, g.1 < NUM_STRINGS) :
    ∃ ms : List Int, midiNotes c = some ms ∧ ms.length = c.length := by
  induction c with
  | nil => exact ⟨[], rfl, rfl⟩
  | cons g rest ih =>
    obtain ⟨ms, hms, hlen⟩ := ih (fun x hx => hb x (List.mem_cons_of_mem _ hx))
    have hg : g.1 < 6 := by
      have := hb g (List.mem_cons_self _ _)
      simpa [NUM_STRINGS] using this
    obtain ⟨t, hts⟩ : ∃ t, TUNING[g.1]? = some t :=
      ⟨_, List.getElem?_eq_getElem (show g.1 < TUNING.length by
        simpa [TUNING] using hg)⟩
    refine ⟨(t + (g.2 : Int)) :: ms, ?_, by simp [hlen]⟩
    simp [midiNotes, get_note_midi, List.get?_eq_getElem?, hts, hms]

/-- C8: for every non-empty candidate whose positions are within configured
bounds, the fitness evaluator succeeds with some (finite) integer score, is
deterministic (two evaluations agree), and on a length-1 candidate
contributes no pair-based terms while the resolution bonus still applies. -/
theorem fitness_total_deterministic (c : Chromosome) (hne : c ≠ [])
    (hb : ∀ g ∈ c, g.1 < NUM_STRINGS ∧ g.2 ≤ MAX_FRET) :
    (∃ v : Int, fitness_function c = some v) ∧
    (∀ v w : Int, fitness_function c = some v → fitness_function c = some w → v = w) ∧
    (∀ g : Gene, c = [g] → ∀ m : Int, get_note_midi g.1 g.2 = some m →
      fitness_function c =
        some (harmonyTerm SCALE_C_MAJOR m + (if m % 12 = 0 then 30 else 0))) := by
  obtain ⟨ms, hms, hlen⟩ := midiNotes_isSome c (fun g hg => (hb g hg).1)
  have hmsne : ms ≠ [] := by
    intro h
    apply hne
    rw [← List.length_eq_zero, ← hlen, h]
    rfl
  obtain ⟨last_note, hlast⟩ :=
    Option.isSome_iff_exists.mp (List.getLast?_isSome.mpr hmsne)
  refine ⟨⟨(ms.map (harmonyTerm SCALE_C_MAJOR)).sum + pairTerms (c.zip ms)
      + (if last_note % 12 = 0 then 30 else 0), ?_⟩, ?_, ?_⟩
  · simp only [fitness_function, fitness_scale, hms, Option.some_bind, hlast,
      Option.map_some']
  · intro v w hv hw
    rw [hv] at hw
    exact Option.some.inj hw
  · intro g hgc m hm
    subst hgc
    have hmid : midiNotes [g] = some [m] := by simp [midiNotes, hm]
    simp [fitness_function, fitness_scale, hmid, pairTerms_single]

/-- Witness for fitness_total_deterministic at the candidate [(5,0)]. -/
theorem fitness_total_deterministic_witness :
    (∃ v : Int, fitness_function [(5, 0)] = some v) ∧
    (∀ v w : Int, fitness_function [(5, 0)] = some v →
      fitness_function [(5, 0)] = some w → v = w) ∧
    (∀ g : Gene, ([(5, 0)] : Chromosome) = [g] → ∀ m : Int,
      get_note_midi g.1 g.2 = some m →
      fitness_function [(5, 0)] =
        some (harmonyTerm SCALE_C_MAJOR m + (if m % 12 = 0 then 30 else 0))) :=
  fitness_total_deterministic [(5, 0)] (by decide) (by decide)

/-- C5 counterexample: [(0,0),(0,8)] ends on pitch 48 (chroma 0, tonic) and
scores 39; the otherwise-identical [(0,0),(0,12)] ends on pitch 52 (chroma
4, in key, non-tonic) and scores -4. The gap is 43, not exactly 30, because
changing the final position also changes the fret-distance technique
penalty (8 frets versus 12 frets from the previous note). -/
theorem scenarioC_counterexample :
    fitness_function [(0, 0), (0, 8)] = some 39 ∧
    fitness_function [(0, 0), (0, 12)] = some (-4) ∧
    ((39 : Int) ≠ -4 + 30) := ⟨rfl, rfl, by omega⟩

/-- Appending one element adds exactly one pair contribution, computed from
the previous last element. -/
theorem pairTerms_concat : ∀ (zs : List (Gene × Int)) (z w : Gene × Int),
    zs.getLast? = some z → pairTerms (zs ++ [w]) = pairTerms zs + pairTerm z w
  | [], z, w, h => by simp at h
  | [u], z, w, h => by
    have hu : u = z := by simpa using h
    subst hu
    simp [pairTerms_cons₂, pairTerms_single]
  | u :: v :: rest, z, w, h => by
    have h' : (v :: rest).getLast? = some z := by
      rwa [List.getLast?_cons_cons] at h
    have ih := pairTerms_concat (v :: rest) z w h'
    simp only [List.cons_append] at ih ⊢
    rw [pairTerms_cons₂, pairTerms_cons₂, ih]
    ring

/-- midiNotes distributes over append. -/
theorem midiNotes_append (l1 l2 : Chromosome) :
    midiNotes (l1 ++ l2) =
      (midiNotes l1).bind (fun m1 => (midiNotes l2).map (fun m2 => m1 ++ m2)) := by
  induction l1 with
  | nil =>
    simp [midiNotes]
  | cons g rest ih =>
    have hcons : midiNotes (g :: rest) = (get_note_midi g.1 g.2).bind
        (fun m => (midiNotes rest).map (fun ms => m :: ms)) := rfl
    have hcons2 : midiNotes (g :: (rest ++ l2)) = (get_note_midi g.1 g.2).bind
        (fun m => (midiNotes (rest ++ l2)).map (fun ms => m :: ms)) := rfl
    rw [List.cons_append, hcons2, ih, hcons]
    cases get_note_midi g.1 g.2
    · rfl
    · cases midiNotes rest
      · rfl
      · cases midiNotes l2
        · rfl
        · simp

/-- C5 amended: a candidate ending on the tonic scores exactly +30 above the
otherwise-identical candidate if its final note lands on the dominant (the
other chroma in the same harmony tier) and the two final notes incur the
same technique and contour pair terms. This condition is sufficient, not
necessary (other differences can cancel); the raw claim fails because the
pair terms and the +5 tonic/dominant bonus also move with the final
position. -/
theorem resolution_bonus_amended (init : List Gene) (p a b : Gene)
    (ms0 : List Int) (mp ma mb : Int)
    (hms : midiNotes (init ++ [p]) = some (ms0 ++ [mp]))
    (hlen : init.length = ms0.length)
    (ha : get_note_midi a.1 a.2 = some ma)
    (hb : get_note_midi b.1 b.2 = some mb)
    (hta : ma % 12 = 0)
    (htb : mb % 12 = 7)
    (hpair : pairTerm (p, mp) (a, ma) = pairTerm (p, mp) (b, mb)) :
    ∃ va vb : Int,
      fitness_function (init ++ [p, a]) = some va ∧
      fitness_function (init ++ [p, b]) = some vb ∧
      va = vb + 30 := by
  have hlen2 : (init ++ [p]).length = (ms0 ++ [mp]).length := by simp [hlen]
  have hzip : (init ++ [p]).zip (ms0 ++ [mp]) = init.zip ms0 ++ [(p, mp)] :=
    List.zip_append hlen
  have key : ∀ (x : Gene) (mx : Int), get_note_midi x.1 x.2 = some mx →
      fitness_function (init ++ [p, x]) = some
        ((((ms0 ++ [mp]).map (harmonyTerm SCALE_C_MAJOR)).sum + harmonyTerm SCALE_C_MAJOR mx)
          + (pairTerms ((init ++ [p]).zip (ms0 ++ [mp])) + pairTerm (p, mp) (x, mx))
          + (if mx % 12 = 0 then 30 else 0)) := by
    intro x mx hx
    have happ : init ++ [p, x] = (init ++ [p]) ++ [x] := by simp
    have hmid : midiNotes ((init ++ [p]) ++ [x]) = some ((ms0 ++ [mp]) ++ [mx]) := by
      rw [midiNotes_append, hms]
      simp [midiNotes, hx]
    have hzip2 : ((init ++ [p]) ++ [x]).zip ((ms0 ++ [mp]) ++ [mx])
        = (init ++ [p]).zip (ms0 ++ [mp]) ++ [(x, mx)] := List.zip_append hlen2
    have hpt : pairTerms ((init ++ [p]).zip (ms0 ++ [mp]) ++ [(x, mx)])
        = pairTerms ((init ++ [p]).zip (ms0 ++ [mp])) + pairTerm (p, mp) (x, mx) := by
      apply pairTerms_concat
      rw [hzip]
      exact List.getLast?_concat _
    rw [happ]
    simp only [fitness_function, fitness_scale, hmid, Option.some_bind]
    rw [List.getLast?_concat, hzip2, hpt]
    simp [List.map_append, List.sum_append]
    ring
  have hA := key a ma ha
  have hB := key b mb hb
  refine ⟨_, _, hA, hB, ?_⟩
  have hha : harmonyTerm SCALE_C_MAJOR ma = 15 := by
    simp [harmonyTerm, SCALE_C_MAJOR, hta]
  have hhb : harmonyTerm SCALE_C_MAJOR mb = 15 := by
    simp [harmonyTerm, SCALE_C_MAJOR, htb]
  rw [hha, hhb, ← hpair, if_pos hta, htb]
  simp

/-- Witness for resolution_bonus_amended: previous note (0,0) (pitch 40),
tonic ending (2,10) (pitch 60, chroma 0) versus dominant ending (0,15)
(pitch 55, chroma 7); both endings cost the same pair term (-50). -/
theorem resolution_bonus_amended_witness :
    ∃ va vb : Int,
      fitness_function ([] ++ [(0, 0), (2, 10)]) = some va ∧
      fitness_function ([] ++ [(0, 0), (0, 15)]) = some vb ∧
      va = vb + 30 :=
  resolution_bonus_amended [] (0, 0) (2, 10) (0, 15) [] 40 60 55 rfl rfl rfl rfl
    (by decide) (by decide) (by decide)

end GTG

namespace GTG

/-- nextGen always rebuilds a population of exactly POPULATION_SIZE members:
the elite plus the children appended by the while loop. -/
theorem nextGen_length (population : List Chromosome) (draws : Nat → ChildDraw) :
    (nextGen population draws).length = POPULATION_SIZE := by
  simp [nextGen, POPULATION_SIZE]

/-- Every generation of the run has exactly POPULATION_SIZE members. -/
theorem populationAt_length (r : Oracle) (g : Nat) :
    (populationAt r g).length = POPULATION_SIZE := by
  cases g with
  | zero => simp [populationAt]
  | succ g => simp [populationAt, nextGen_length]

/-- Sorting is a permutation of the scored population. -/
theorem sortedPop_perm (population : List Chromosome) :
    (sortedPop population).Perm (scoredPop population) :=
  List.mergeSort_perm _ _

theorem sortedPop_length (population : List Chromosome) :
    (sortedPop population).length = population.length := by
  rw [sortedPop, List.length_mergeSort, scoredPop, List.length_map]

/-- The sorted population is ordered by non-increasing score. -/
theorem sortedPop_sorted (population : List Chromosome) :
    (sortedPop population).Pairwise (fun a b => b.2 ≤ a.2) := by
  have h := @List.sorted_mergeSort (Chromosome × Int)
    (fun a b => decide (b.2 ≤ a.2))
    (fun a b c hab hbc => by
      simp only [decide_eq_true_eq] at hab hbc ⊢
      omega)
    (fun a b => by
      rcases Int.le_total b.2 a.2 with h | h <;> simp [h])
    (scoredPop population)
  exact h.imp (fun hab => by simpa using hab)

/-- Every element of the sorted population is a member of the population
paired with its fitness score. -/
theorem mem_sortedPop (population : List Chromosome) (x : Chromosome × Int)
    (hx : x ∈ sortedPop population) :
    x.1 ∈ population ∧ x.2 = fitnessTotal x.1 := by
  have hx2 : x ∈ scoredPop population := (sortedPop_perm population).mem_iff.mp hx
  obtain ⟨c, hc, rfl⟩ := List.mem_map.mp hx2
  exact ⟨hc, rfl⟩

theorem sortedPop_ne_nil (population : List Chromosome) (h : population ≠ []) :
    sortedPop population ≠ [] := by
  intro hnil
  apply h
  have hl := sortedPop_length population
  rw [hnil] at hl
  exact List.length_eq_zero.mp hl.symm

theorem sortedPop_exists_cons (population : List Chromosome)
    (hne : population ≠ []) :
    ∃ hd tl, sortedPop population = hd :: tl := by
  cases hs : sortedPop population with
  | nil => exact absurd hs (sortedPop_ne_nil population hne)
  | cons hd tl => exact ⟨hd, tl, rfl⟩

/-- The elite top_performers[0] is the candidate of the head of the sorted
population (the take keeps 30 > 0 elements). -/
theorem topPerformers_headI (population : List Chromosome) (hd : Chromosome × Int)
    (tl : List (Chromosome × Int)) (h : sortedPop population = hd :: tl) :
    (topPerformers population).headI = hd.1 := by
  rw [topPerformers, h, show TOP_COUNT = 29 + 1 from rfl, List.take_succ_cons]
  rfl

/-- The head of the sorted population carries a maximal score. -/
theorem sortedPop_head_max (population : List Chromosome) (hd : Chromosome × Int)
    (tl : List (Chromosome × Int)) (h : sortedPop population = hd :: tl)
    (c : Chromosome) (hc : c ∈ population) : fitnessTotal c ≤ hd.2 := by
  have hmem : (c, fitnessTotal c) ∈ sortedPop population := by
    rw [(sortedPop_perm population).mem_iff]
    exact List.mem_map.mpr ⟨c, hc, rfl⟩
  rw [h] at hmem
  rcases List.mem_cons.mp hmem with heq | hmemtl
  · rw [← heq]
  · have hp := sortedPop_sorted population
    rw [h] at hp
    exact (List.pairwise_cons.mp hp).1 _ hmemtl

/-- The elite is a member of the population it was selected from. -/
theorem elite_mem (population : List Chromosome) (hne : population ≠ []) :
    (topPerformers population).headI ∈ population := by
  obtain ⟨hd, tl, hs⟩ := sortedPop_exists_cons population hne
  rw [topPerformers_headI population hd tl hs]
  exact (mem_sortedPop population hd (by rw [hs]; exact List.mem_cons_self _ _)).1

/-- The elite scores at least as high as every population member. -/
theorem elite_max (population : List Chromosome) (hne : population ≠ [])
    (c : Chromosome) (hc : c ∈ population) :
    fitnessTotal c ≤ fitnessTotal ((topPerformers population).headI) := by
  obtain ⟨hd, tl, hs⟩ := sortedPop_exists_cons population hne
  rw [topPerformers_headI population hd tl hs]
  have h2 := (mem_sortedPop population hd (by rw [hs]; exact List.mem_cons_self _ _)).2
  rw [← h2]
  exact sortedPop_head_max population hd tl hs c hc

theorem maximum_le_of_forall (l : List Int) (m : Int) (h : ∀ x ∈ l, x ≤ m) :
    l.maximum ≤ (m : WithBot Int) := by
  induction l with
  | nil => simp [List.maximum_nil]
  | cons a l ih =>
    rw [List.maximum_cons]
    exact sup_le (by exact_mod_cast h a (List.mem_cons_self _ _))
      (ih (fun x hx => h x (List.mem_cons_of_mem _ hx)))

/-- C1: with elitism, the best score present in the population never
decreases from one generation to the next: the single best-ranked candidate
is copied unchanged into the next population. -/
theorem elitism_monotone (r : Oracle) (g : Nat) :
    maxScore (populationAt r g) ≤ maxScore (populationAt r (g + 1)) := by
  have hlen : (populationAt r g).length = POPULATION_SIZE := populationAt_length r g
  have hne : populationAt r g ≠ [] := by
    intro h
    rw [h] at hlen
    simp [POPULATION_SIZE] at hlen
  have hstep : populationAt r (g + 1) = nextGen (populationAt r g) (r.childDraw g) := rfl
  have hmem_new : (topPerformers (populationAt r g)).headI ∈ populationAt r (g + 1) := by
    rw [hstep, nextGen]
    exact List.mem_cons_self _ _
  have hup : maxScore (populationAt r g) ≤
      ((fitnessTotal ((topPerformers (populationAt r g)).headI) : Int) : WithBot Int) := by
    show (List.map fitnessTotal (populationAt r g)).maximum ≤ _
    apply maximum_le_of_forall
    intro x hx
    obtain ⟨c, hc, rfl⟩ := List.mem_map.mp hx
    exact elite_max (populationAt r g) hne c hc
  have hdown := List.le_maximum_of_mem'
    (List.mem_map_of_mem fitnessTotal hmem_new)
  exact le_trans hup hdown

/-- Every member of topPerformers comes from the population. -/
theorem topPerformers_subset (population : List Chromosome) (c : Chromosome)
    (hc : c ∈ topPerformers population) : c ∈ population := by
  rw [topPerformers] at hc
  obtain ⟨x, hx, rfl⟩ := List.mem_map.mp hc
  exact (mem_sortedPop population x (List.take_subset _ _ hx)).1

theorem topPerformers_length (population : List Chromosome)
    (h : population.length = POPULATION_SIZE) :
    (topPerformers population).length = TOP_COUNT := by
  rw [topPerformers, List.length_map, List.length_take, sortedPop_length, h]
  simp [TOP_COUNT, POPULATION_SIZE]

theorem getD_mem (l : List Chromosome) (n : Nat) (h : n < l.length) :
    l.getD n [] ∈ l := by
  rw [List.getD_eq_getElem?_getD, List.getElem?_eq_getElem h]
  exact List.getElem_mem h

theorem mutate_length (c : Chromosome) (d : Bool) (i : Nat) (g : Gene) :
    (mutate c d i g).length = c.length := by
  cases d <;> simp [mutate]

theorem crossover_length (p1 p2 : Chromosome) (split : Nat)
    (h1 : p1.length = MELODY_LENGTH) (h2 : p2.length = MELODY_LENGTH)
    (hs : split ≤ MELODY_LENGTH) :
    (crossover p1 p2 split).length = MELODY_LENGTH := by
  simp [crossover, h1, h2]
  omega

/-- C3: across every generation of a run whose random draws respect their
range contracts, the population holds exactly POPULATION_SIZE candidates
and every candidate (initial, elite, or crossover+mutation child) has
exactly MELODY_LENGTH positions. -/
theorem population_invariants (r : Oracle) (hr : r.Valid) (g : Nat) :
    (populationAt r g).length = POPULATION_SIZE ∧
    ∀ c ∈ populationAt r g, c.length = MELODY_LENGTH := by
  induction g with
  | zero =>
    refine ⟨populationAt_length r 0, ?_⟩
    intro c hc
    obtain ⟨n, hn, rfl⟩ := List.mem_map.mp hc
    simp [generate_individual]
  | succ g ih =>
    obtain ⟨hplen, hall⟩ := ih
    refine ⟨populationAt_length r (g + 1), ?_⟩
    intro c hc
    have hne : populationAt r g ≠ [] := by
      intro h
      rw [h] at hplen
      simp [POPULATION_SIZE] at hplen
    have hstep : populationAt r (g + 1) = nextGen (populationAt r g) (r.childDraw g) := rfl
    rw [hstep, nextGen] at hc
    rcases List.mem_cons.mp hc with rfl | hc2
    · exact hall _ (elite_mem _ hne)
    · obtain ⟨i, _, rfl⟩ := List.mem_map.mp hc2
      obtain ⟨hv1, hv2, hv3, hv4, hv5, hv6⟩ := hr.2 g i
      have htl : (topPerformers (populationAt r g)).length = TOP_COUNT :=
        topPerformers_length _ hplen
      have hp1 := getD_mem (topPerformers (populationAt r g)) (r.childDraw g i).parent1
        (by rw [htl]; exact hv1)
      have hp2 := getD_mem (topPerformers (populationAt r g)) (r.childDraw g i).parent2
        (by rw [htl]; exact hv2)
      have hl1 : ((topPerformers (populationAt r g)).getD (r.childDraw g i).parent1 []).length
          = MELODY_LENGTH := hall _ (topPerformers_subset _ _ hp1)
      have hl2 : ((topPerformers (populationAt r g)).getD (r.childDraw g i).parent2 []).length
          = MELODY_LENGTH := hall _ (topPerformers_subset _ _ hp2)
      rw [makeChild, mutate_length, crossover_length _ _ _ hl1 hl2 (by omega)]

/-- A concrete all-constant run whose draws satisfy every range contract. -/
def constOracle : Oracle where
  initDraw := fun _ _ => (0, 0)
  childDraw := fun _ _ => ⟨0, 0, 1, false, 0, (0, 0)⟩

theorem constOracle_valid : constOracle.Valid :=
  ⟨fun _ _ => ⟨Nat.zero_le _, Nat.zero_le _⟩,
   fun _ _ =>
    ⟨(by decide : (0 : Nat) < TOP_COUNT), (by decide : (0 : Nat) < TOP_COUNT),
     le_refl 1, (by decide : (1 : Nat) ≤ MELODY_LENGTH - 1),
     Nat.zero_le _, Nat.zero_le _, Nat.zero_le _⟩⟩

/-- Witness for population_invariants on the constant oracle at generation 1. -/
theorem population_invariants_witness :
    (populationAt constOracle 1).length = POPULATION_SIZE ∧
    ∀ c ∈ populationAt constOracle 1, c.length = MELODY_LENGTH :=
  population_invariants constOracle constOracle_valid 1

end GTG
